import Mathlib

/-!
Verification of the jump consistent hash library (`src/lib.rs`, `src/jumphash.rs`).

The repository contains two Rust implementations of `jump_hash_from_u64`:
* `lib.rs` (the public crate code) computes the next jump index with 64-bit
  signed **integer** division:
  `j = (b.wrapping_add(1) * (1i64 << 31)) / ((key >> 33).wrapping_add(1) as i64)`.
* `jumphash.rs` computes it with **double precision** division truncated toward
  zero, exactly as the Lamping–Veach paper does:
  `j = (((b+1) as f64) * ((1i64 << 31) as f64) / (((key >> 33)+1) as f64)) as i64`.

Both are embedded below over ℕ/ℤ.  The floating-point division is modelled
exactly: both operands are integers below 2^53 (so their `f64` images are
exact), the quotient is rounded to 53 significant bits with round-to-nearest,
ties-to-even, and then truncated toward zero — this is bit-for-bit IEEE-754
binary64 semantics for the operand ranges that occur in the algorithm.
-/

/-- LCG multiplier constant from `lib.rs` (`LCG_CONSTANT`). -/
def LCG_CONSTANT : ℕ := 2862933555777941757

/-- One update of the embedded generator, as `lib.rs` computes it on a `u64`:
`key.wrapping_mul(LCG_CONSTANT).wrapping_add(1)` — a wrapping multiplication
modulo 2^64 followed by a wrapping addition modulo 2^64. -/
def lcgStep (key : ℕ) : ℕ := (key * LCG_CONSTANT % 2 ^ 64 + 1) % 2 ^ 64

/-- Next jump index as `lib.rs` computes it: the `u64` logical right shift
`key >> 33`, plus 1, dividing `(b + 1) * (1i64 << 31)` with 64-bit integer
division.  All quantities are nonnegative in `i64`, so `ℕ` division is the
faithful embedding (see `mul_no_overflow` for the absence of `i64` overflow). -/
def nextJ (key j : ℕ) : ℕ := (j + 1) * 2 ^ 31 / (key >>> 33 + 1)

/-- Floor of the base-2 logarithm, by structural recursion on a fuel bound
(`lgf fuel n` is exact whenever `n < 2 ^ fuel`). -/
def lgf : ℕ → ℕ → ℕ
  | 0, _ => 0
  | fuel + 1, n => if n ≤ 1 then 0 else lgf fuel (n / 2) + 1

/-- Floor of the base-2 logarithm for numbers below 2^64. -/
def flog2 (n : ℕ) : ℕ := lgf 64 n

/-- Rounding of the rational `n / d` to the nearest integer, ties to even. -/
def rne (n d : ℕ) : ℕ :=
  let q := n / d
  let r := n % d
  if 2 * r < d then q else if d < 2 * r then q + 1 else if q % 2 = 0 then q else q + 1

/-- Truncation toward zero of the correctly rounded IEEE-754 binary64 quotient
of the exactly representable integers `n` and `d` (`1 ≤ d ≤ n < 2^63`): the
exact quotient, rounded to 53 significant bits with round-to-nearest
ties-to-even, then truncated to an integer.  This is the value of
`((n as f64) / (d as f64)) as i64` in `jumphash.rs`. -/
def f64DivTrunc (n d : ℕ) : ℕ :=
  let s := flog2 (n / d)
  if s ≤ 52 then rne (n * 2 ^ (52 - s)) d / 2 ^ (52 - s)
  else rne n (d * 2 ^ (s - 52)) * 2 ^ (s - 52)

/-- Next jump index as `jumphash.rs` computes it, with double-precision
division truncated toward zero. -/
def nextJF (key j : ℕ) : ℕ := f64DivTrunc ((j + 1) * 2 ^ 31) (key >>> 33 + 1)

/-- The while loop of `jump_hash_from_u64` in `lib.rs`:
`while j < buckets { b = j; key = key.wrapping_mul(LCG_CONSTANT).wrapping_add(1);
j = (b.wrapping_add(1) * (1i64 << 31)) / ((key >> 33).wrapping_add(1) as i64) }`,
returning `b`.  The `fuel` argument bounds the number of iterations; `buckets`
iterations always suffice (`termination_fuel_bound`), so the entry point below
runs it with `fuel = buckets`. -/
def jumpGoF : ℕ → ℕ → ℕ → ℕ → ℤ → ℤ
  | 0, _, _, _, b => b
  | fuel + 1, buckets, key, j, b =>
    if j < buckets then
      let key' := lcgStep key
      jumpGoF fuel buckets key' (nextJ key' j) (j : ℤ)
    else b

/-- The same loop as computed by `jumphash.rs`, whose only difference is the
double-precision division in the update of `j`. -/
def jumpGoFP : ℕ → ℕ → ℕ → ℕ → ℤ → ℤ
  | 0, _, _, _, b => b
  | fuel + 1, buckets, key, j, b =>
    if j < buckets then
      let key' := lcgStep key
      jumpGoFP fuel buckets key' (nextJF key' j) (j : ℤ)
    else b

/-- Embedding of `jump_hash_from_u64` from `lib.rs`: `assert!(buckets >= 1)`
(a panic, modelled as `none`), then the loop starting from `b = -1`, `j = 0`,
and finally the cast `b as u32` (truncation modulo 2^32; the result is in
`[0, buckets)` so the cast is the identity there). -/
def jump_hash_from_u64 (key buckets : ℕ) : Option ℕ :=
  if 1 ≤ buckets then some ((jumpGoF buckets buckets key 0 (-1) % 2 ^ 32).toNat)
  else none

/-- Embedding of `jump_hash_from_u64` from `jumphash.rs` (double-precision
division variant). -/
def jumphash_jump_hash_from_u64 (key buckets : ℕ) : Option ℕ :=
  if 1 ≤ buckets then some ((jumpGoFP buckets buckets key 0 (-1) % 2 ^ 32).toNat)
  else none

/-- Modelled from the spec: the Key Digest stage of `jump_hash_from_str` is
Rust's `std::collections::hash_map::DefaultHasher`, which is standard-library
code not present in this repository's sources; per spec §4.1 it is an arbitrary
deterministic function from keys to 64-bit values ("any byte sequence is valid
input", "a 64-bit unsigned integer; no range restriction").  It is therefore
taken as a parameter.  `jump_hash_from_str` itself (from `lib.rs`) asserts
`buckets >= 1`, digests the key, and calls `jump_hash_from_u64`. -/
def jump_hash_from_str (digest : String → ℕ) (key : String) (buckets : ℕ) :
    Option ℕ :=
  if 1 ≤ buckets then jump_hash_from_u64 (digest key % 2 ^ 64) buckets else none

/-- C6: on every loop iteration the 64-bit state is updated exactly as
`h = (h * 2862933555777941757 + 1) mod 2^64` — the wrapping multiplication
followed by the wrapping addition equals the single modular expression — and
the shift `h >> 33` is the logical (unsigned) right shift, i.e. division of
the 64-bit value by 2^33. -/
theorem lcg_step_semantics (key : ℕ) :
    lcgStep key = (key * 2862933555777941757 + 1) % 2 ^ 64 ∧
    key >>> 33 = key / 2 ^ 33 := by
  constructor
  · simp [lcgStep, LCG_CONSTANT, Nat.mod_add_mod]
  · simp [Nat.shiftRight_eq_div_pow]

/-- C8: in every loop iteration the divisor `(h >> 33) + 1` of the jump-index
division is at least 1 (the state after an LCG update is `lcgStep key`), so
the division in `nextJ` is never a division by zero. -/
theorem divisor_positive (key j : ℕ) :
    1 ≤ lcgStep key >>> 33 + 1 ∧
    nextJ (lcgStep key) j = (j + 1) * 2 ^ 31 / (lcgStep key >>> 33 + 1) := by
  exact ⟨Nat.le_add_left 1 _, rfl⟩

/-- C5: calling either entry point with `buckets = 0` fails the assertion
(modelled by `none`) before any loop computation, and for `buckets ≥ 1` every
seed and every key produce a result. -/
theorem precondition_fail_fast :
    (∀ key : ℕ, jump_hash_from_u64 key 0 = none) ∧
    (∀ (digest : String → ℕ) (key : String),
      jump_hash_from_str digest key 0 = none) ∧
    (∀ key buckets : ℕ, 1 ≤ buckets →
      ∃ v, jump_hash_from_u64 key buckets = some v) ∧
    (∀ (digest : String → ℕ) (key : String) (buckets : ℕ), 1 ≤ buckets →
      ∃ v, jump_hash_from_str digest key buckets = some v) := by
  refine ⟨fun key => ?_, fun digest key => ?_, fun key buckets h => ?_,
          fun digest key buckets h => ?_⟩ <;>
    simp [jump_hash_from_u64, jump_hash_from_str, *]

theorem precondition_fail_fast_witness :
    jump_hash_from_u64 7 0 = none ∧ (∃ v, jump_hash_from_u64 7 10 = some v) ∧
    jump_hash_from_str (fun _ => 52) "k" 0 = none ∧
    ∃ v, jump_hash_from_str (fun _ => 52) "k" 10 = some v :=
  ⟨precondition_fail_fast.1 7,
   precondition_fail_fast.2.2.1 7 10 (by decide),
   precondition_fail_fast.2.1 (fun _ => 52) "k",
   precondition_fail_fast.2.2.2 (fun _ => 52) "k" 10 (by decide)⟩

set_option maxRecDepth 100000

/-- C3: `jump_hash_from_u64` reproduces the published reference vectors for
seeds `1`, `0xdeadbeef` and `0x0ddc0ffeebadf00d` at bucket counts 1 through 19. -/
theorem reference_vectors :
    ((List.range 19).map fun i => jump_hash_from_u64 1 (i + 1)) =
      List.map some [0, 0, 0, 0, 0, 0, 6, 6, 6, 6, 6, 6, 6, 6, 6, 6, 6, 17, 17] ∧
    ((List.range 19).map fun i => jump_hash_from_u64 0xdeadbeef (i + 1)) =
      List.map some [0, 1, 2, 3, 3, 5, 5, 5, 5, 5, 5, 5, 5, 5, 5, 5, 16, 16, 16] ∧
    ((List.range 19).map fun i => jump_hash_from_u64 0x0ddc0ffeebadf00d (i + 1)) =
      List.map some [0, 1, 2, 2, 2, 2, 2, 2, 2, 2, 2, 2, 2, 2, 2, 15, 15, 15, 15] := by
  refine ⟨by decide, by decide, by decide⟩

/-- The updated LCG state is a 64-bit value. -/
theorem lcgStep_lt (key : ℕ) : lcgStep key < 2 ^ 64 :=
  Nat.mod_lt _ (by norm_num)

/-- For a 64-bit state the divisor `(key >> 33) + 1` is at most 2^31. -/
theorem shift33_succ_le (key : ℕ) (h : key < 2 ^ 64) : key >>> 33 + 1 ≤ 2 ^ 31 := by
  have : key >>> 33 = key / 2 ^ 33 := by simp [Nat.shiftRight_eq_div_pow]
  have : key / 2 ^ 33 < 2 ^ 31 := Nat.div_lt_of_lt_mul (by norm_num at h ⊢; omega)
  omega

/-- Each loop iteration strictly increases the jump index. -/
theorem nextJ_ge (key j : ℕ) (h : key < 2 ^ 64) : j + 1 ≤ nextJ key j := by
  have hd : key >>> 33 + 1 ≤ 2 ^ 31 := shift33_succ_le key h
  have hd0 : 0 < key >>> 33 + 1 := Nat.succ_pos _
  rw [nextJ, Nat.le_div_iff_mul_le hd0]
  exact Nat.mul_le_mul_left _ hd

/-- Once the jump index reaches the bucket count, the loop returns `b`. -/
theorem jumpGoF_exit (f buckets key j : ℕ) (b : ℤ) (h : buckets ≤ j) :
    jumpGoF f buckets key j b = b := by
  cases f with
  | zero => rfl
  | succ f => simp [jumpGoF, Nat.not_lt.mpr h]

/-- Same exit behavior for the double-precision variant of the loop. -/
theorem jumpGoFP_exit (f buckets key j : ℕ) (b : ℤ) (h : buckets ≤ j) :
    jumpGoFP f buckets key j b = b := by
  cases f with
  | zero => rfl
  | succ f => simp [jumpGoFP, Nat.not_lt.mpr h]

/-- Fuel irrelevance: any fuel of at least `buckets - j` iterations computes
the same answer, because `j` increases by at least one per iteration. -/
theorem jumpGoF_fuel (buckets : ℕ) :
    ∀ (f₁ f₂ key j : ℕ) (b : ℤ), buckets ≤ j + f₁ → buckets ≤ j + f₂ →
      jumpGoF f₁ buckets key j b = jumpGoF f₂ buckets key j b := by
  intro f₁
  induction f₁ with
  | zero =>
    intro f₂ key j b h1 h2
    rw [jumpGoF_exit _ _ _ _ _ (by omega), jumpGoF_exit _ _ _ _ _ (by omega)]
  | succ f ih =>
    intro f₂ key j b h1 h2
    by_cases hj : j < buckets
    · obtain ⟨g, rfl⟩ : ∃ g, f₂ = g + 1 := ⟨f₂ - 1, by omega⟩
      have hnext := nextJ_ge (lcgStep key) j (lcgStep_lt key)
      simp only [jumpGoF, if_pos hj]
      exact ih g (lcgStep key) (nextJ (lcgStep key) j) (j : ℤ) (by omega) (by omega)
    · rw [jumpGoF_exit _ _ _ _ _ (by omega), jumpGoF_exit _ _ _ _ _ (by omega)]

/-- The loop result stays below the bucket count as long as `b` does. -/
theorem jumpGoF_lt (buckets : ℕ) :
    ∀ (f key j : ℕ) (b : ℤ), b < (buckets : ℤ) →
      jumpGoF f buckets key j b < (buckets : ℤ) := by
  intro f
  induction f with
  | zero => intro key j b hb; exact hb
  | succ f ih =>
    intro key j b hb
    by_cases hj : j < buckets
    · simp only [jumpGoF, if_pos hj]
      exact ih (lcgStep key) (nextJ (lcgStep key) j) (j : ℤ) (by exact_mod_cast hj)
    · simpa [jumpGoF, hj] using hb

/-- The loop result is at least `b` whenever `b ≤ j` on entry. -/
theorem jumpGoF_ge (buckets : ℕ) :
    ∀ (f key j : ℕ) (b : ℤ), b ≤ (j : ℤ) → b ≤ jumpGoF f buckets key j b := by
  intro f
  induction f with
  | zero => intro key j b hb; exact le_refl b
  | succ f ih =>
    intro key j b hb
    by_cases hj : j < buckets
    · simp only [jumpGoF, if_pos hj]
      have hnext := nextJ_ge (lcgStep key) j (lcgStep_lt key)
      exact le_trans hb (ih (lcgStep key) (nextJ (lcgStep key) j) (j : ℤ) (by exact_mod_cast by omega))
    · simp [jumpGoF, hj]

/-- C7: for every seed and every `buckets ≥ 1` the loop terminates within at
most `buckets` iterations — giving the loop any fuel of at least `buckets`
iterations yields the same result as exactly `buckets` iterations — because
each iteration strictly increases `j` (second conjunct). -/
theorem termination_fuel_bound (key buckets fuel k j : ℕ) (h : buckets ≤ fuel) :
    jumpGoF fuel buckets key 0 (-1) = jumpGoF buckets buckets key 0 (-1) ∧
    j + 1 ≤ nextJ (lcgStep k) j :=
  ⟨jumpGoF_fuel buckets fuel buckets key 0 (-1) (by omega) (by omega),
   nextJ_ge (lcgStep k) j (lcgStep_lt k)⟩

theorem termination_fuel_bound_witness :
    jumpGoF 10 3 5 0 (-1) = jumpGoF 3 3 5 0 (-1) ∧ 4 + 1 ≤ nextJ (lcgStep 2) 4 :=
  termination_fuel_bound 5 3 10 2 4 (by decide)

/-- C2: for every seed and every `1 ≤ buckets < 2^32` the returned bucket
index is strictly less than `buckets`; likewise for `jump_hash_from_str`
with any digest function and any string key. -/
theorem bucket_range (buckets : ℕ) (h1 : 1 ≤ buckets) (h2 : buckets < 2 ^ 32) :
    (∀ key : ℕ, ∃ v, jump_hash_from_u64 key buckets = some v ∧ v < buckets) ∧
    (∀ (digest : String → ℕ) (key : String),
      ∃ v, jump_hash_from_str digest key buckets = some v ∧ v < buckets) := by
  have core : ∀ key : ℕ, ∃ v, jump_hash_from_u64 key buckets = some v ∧ v < buckets := by
    intro key
    obtain ⟨B, rfl⟩ : ∃ B, buckets = B + 1 := ⟨buckets - 1, by omega⟩
    set z := jumpGoF (B + 1) (B + 1) key 0 (-1) with hz
    have hcast : ((B + 1 : ℕ) : ℤ) = (B : ℤ) + 1 := by push_cast; ring
    have hlt : z < (B : ℤ) + 1 := by
      have hstart : (-1 : ℤ) < ((B + 1 : ℕ) : ℤ) := by rw [hcast]; omega
      have := jumpGoF_lt (B + 1) (B + 1) key 0 (-1) hstart
      rw [hcast] at this
      exact this
    have hge : (0 : ℤ) ≤ z := by
      rw [hz]
      simp only [jumpGoF, if_pos (Nat.succ_pos B)]
      exact jumpGoF_ge (B + 1) B (lcgStep key) (nextJ (lcgStep key) 0) 0
        (by exact_mod_cast Nat.zero_le _)
    have h32 : z < (2 : ℤ) ^ 32 := by
      have : ((B : ℤ) + 1) ≤ (2 : ℤ) ^ 32 := by exact_mod_cast Nat.le_of_lt h2
      omega
    have hmod : z % 2 ^ 32 = z := Int.emod_eq_of_lt hge h32
    refine ⟨(z % 2 ^ 32).toNat, ?_, ?_⟩
    · unfold jump_hash_from_u64
      rw [if_pos (show 1 ≤ B + 1 by omega)]
    · rw [hmod]; omega
  refine ⟨core, fun digest key => ?_⟩
  obtain ⟨v, hv, hvlt⟩ := core (digest key % 2 ^ 64)
  refine ⟨v, ?_, hvlt⟩
  unfold jump_hash_from_str
  rw [if_pos h1]
  exact hv

theorem bucket_range_witness :
    ∃ v, jump_hash_from_u64 52 10 = some v ∧ v < 10 :=
  (bucket_range 10 (by decide) (by decide)).1 52

/-- Moving from `N` to `N + 1` buckets, any `j`-trajectory position that lies
inside `[0, N)` steps both loops identically; a change of answer can only
come from the trajectory landing exactly on `N`, in which case the result for
`N + 1` buckets is `N`. -/
theorem jumpGoF_succ_eq (N : ℕ) :
    ∀ (f key j : ℕ) (b : ℤ), jumpGoF f (N + 1) key j b ≠ jumpGoF f N key j b →
      jumpGoF f (N + 1) key j b = (N : ℤ) := by
  intro f
  induction f with
  | zero => intro key j b hne; exact absurd rfl hne
  | succ f ih =>
    intro key j b hne
    by_cases hj : j < N
    · have hj1 : j < N + 1 := by omega
      simp only [jumpGoF, if_pos hj, if_pos hj1] at hne ⊢
      exact ih (lcgStep key) (nextJ (lcgStep key) j) (j : ℤ) hne
    · by_cases hj1 : j < N + 1
      · have hjN : j = N := by omega
        subst hjN
        simp only [jumpGoF, if_pos hj1]
        have hnext := nextJ_ge (lcgStep key) j (lcgStep_lt key)
        exact jumpGoF_exit f (j + 1) (lcgStep key) (nextJ (lcgStep key) j) (j : ℤ) hnext
      · rw [jumpGoF_exit _ _ _ _ _ (by omega), jumpGoF_exit _ _ _ _ _ (by omega)] at hne
        exact absurd rfl hne

/-- C1: minimal disruption.  For every seed and every `N ≥ 1` (with `N + 1`
still a valid `u32` bucket count), if growing the bucket count from `N` to
`N + 1` changes the answer, the new answer is exactly the new bucket `N`. -/
theorem minimal_disruption (key N : ℕ) (h1 : 1 ≤ N) (h2 : N + 1 < 2 ^ 32)
    (hne : jump_hash_from_u64 key (N + 1) ≠ jump_hash_from_u64 key N) :
    jump_hash_from_u64 key (N + 1) = some N := by
  have hfuel : jumpGoF N N key 0 (-1) = jumpGoF (N + 1) N key 0 (-1) :=
    jumpGoF_fuel N N (N + 1) key 0 (-1) (by omega) (by omega)
  have hzne : jumpGoF (N + 1) (N + 1) key 0 (-1) ≠ jumpGoF (N + 1) N key 0 (-1) := by
    intro heq
    apply hne
    simp only [jump_hash_from_u64, if_pos (show 1 ≤ N + 1 by omega), if_pos h1]
    rw [heq, hfuel]
  have hzN : jumpGoF (N + 1) (N + 1) key 0 (-1) = (N : ℤ) :=
    jumpGoF_succ_eq N (N + 1) key 0 (-1) hzne
  simp only [jump_hash_from_u64, if_pos (show 1 ≤ N + 1 by omega), hzN]
  congr 1
  rw [Int.emod_eq_of_lt (by exact_mod_cast Nat.zero_le N)
    (by exact_mod_cast (show N < 2 ^ 32 by omega))]
  simp

theorem minimal_disruption_witness :
    1 ≤ 6 ∧ 6 + 1 < 2 ^ 32 ∧
    (jump_hash_from_u64 1 7 ≠ jump_hash_from_u64 1 6 → jump_hash_from_u64 1 7 = some 6) :=
  ⟨by decide, by decide, fun hne => minimal_disruption 1 6 (by decide) (by decide) hne⟩

/-- C10: with a `u32` bucket count, the numerator `(b + 1) * 2^31` of the
jump-index division stays below 2^63 for every in-loop value `b = j <
buckets`, so the unchecked `i64` multiplication in `lib.rs` never overflows,
and the computed quotient also fits in `i64`. -/
theorem mul_no_overflow (key j buckets : ℕ) (h1 : j < buckets) (h2 : buckets < 2 ^ 32) :
    (j + 1) * 2 ^ 31 < 2 ^ 63 ∧ nextJ key j < 2 ^ 63 := by
  have hnum : (j + 1) * 2 ^ 31 < 2 ^ 63 := by
    have : j + 1 ≤ 2 ^ 32 - 1 := by norm_num at h2 ⊢; omega
    calc (j + 1) * 2 ^ 31 ≤ (2 ^ 32 - 1) * 2 ^ 31 := Nat.mul_le_mul_right _ this
    _ < 2 ^ 63 := by norm_num
  exact ⟨hnum, lt_of_le_of_lt (Nat.div_le_self _ _) hnum⟩

theorem mul_no_overflow_witness :
    (3 + 1) * 2 ^ 31 < 2 ^ 63 ∧ nextJ 12345 3 < 2 ^ 63 :=
  mul_no_overflow 12345 3 10 (by decide) (by decide)

/-- Rounding to nearest returns the floor or the ceiling of the quotient. -/
theorem rne_eq_or (n d : ℕ) : rne n d = n / d ∨ rne n d = n / d + 1 := by
  simp only [rne]
  split_ifs <;> simp

/-- Rounding to nearest is at least the floor of the quotient. -/
theorem rne_ge (n d : ℕ) : n / d ≤ rne n d := by
  rcases rne_eq_or n d with h | h <;> omega

/-- Fuel-bounded base-2 logarithm is exact below `2 ^ fuel`. -/
theorem lgf_spec (f : ℕ) :
    ∀ n : ℕ, 1 ≤ n → n < 2 ^ f → 2 ^ lgf f n ≤ n ∧ n < 2 ^ (lgf f n + 1) := by
  induction f with
  | zero => intro n h1 h2; norm_num at h2; omega
  | succ f ih =>
    intro n h1 h2
    by_cases hn : n ≤ 1
    · have : n = 1 := by omega
      subst this
      simp [lgf]
    · simp only [lgf, if_neg hn]
      have h2' : n / 2 < 2 ^ f := by
        rw [pow_succ] at h2
        omega
      obtain ⟨hl, hr⟩ := ih (n / 2) (by omega) h2'
      constructor
      · rw [pow_succ]; omega
      · rw [pow_succ]; omega

/-- Exactness of `flog2` on all inputs that occur in the algorithm. -/
theorem flog2_spec (n : ℕ) (h1 : 1 ≤ n) (h64 : n < 2 ^ 64) :
    2 ^ flog2 n ≤ n ∧ n < 2 ^ (flog2 n + 1) :=
  lgf_spec 64 n h1 h64

/-- Correctly rounded double-precision division, truncated to an integer,
either equals integer division or both quotients are at least 2^21.  The
bound comes from the operand shapes of the algorithm: the divisor is at most
2^31 and the mantissa holds 53 bits, so a rounding step that crosses an
integer boundary forces the quotient's exponent to be at least 21. -/
theorem f64DivTrunc_eq_or_big (n d : ℕ) (hd1 : 0 < d) (hd31 : d ≤ 2 ^ 31)
    (hdn : d ≤ n) (hn : n < 2 ^ 63) :
    f64DivTrunc n d = n / d ∨ (2 ^ 21 ≤ n / d ∧ 2 ^ 21 ≤ f64DivTrunc n d) := by
  have hq1 : 1 ≤ n / d := (Nat.one_le_div_iff hd1).mpr hdn
  have hq64 : n / d < 2 ^ 64 := lt_of_le_of_lt (Nat.div_le_self n d) (by norm_num at hn ⊢; omega)
  obtain ⟨hs1, hs2⟩ := flog2_spec (n / d) hq1 hq64
  simp only [f64DivTrunc]
  set s := flog2 (n / d) with hsdef
  by_cases hs : s ≤ 52
  · rw [if_pos hs]
    set m := 52 - s with hmdef
    set F := n * 2 ^ m / d with hFdef
    have hm0 : 0 < (2 : ℕ) ^ m := pow_pos (by norm_num) m
    have hFq : F / 2 ^ m = n / d := by
      rw [hFdef, Nat.div_div_eq_div_mul, Nat.mul_div_mul_right _ _ hm0]
    rcases rne_eq_or (n * 2 ^ m) d with hr | hr
    · left; rw [hr, hFq]
    · by_cases hcarry : (F + 1) / 2 ^ m = n / d
      · left; rw [hr, hcarry]
      · right
        have hub : (F + 1) / 2 ^ m ≤ n / d + 1 := by
          have hle : F + 1 ≤ F + 2 ^ m := by omega
          calc (F + 1) / 2 ^ m ≤ (F + 2 ^ m) / 2 ^ m := Nat.div_le_div_right hle
          _ = F / 2 ^ m + 1 := Nat.add_div_right F hm0
          _ = n / d + 1 := by rw [hFq]
        have hlb : n / d ≤ (F + 1) / 2 ^ m :=
          le_trans (le_of_eq hFq.symm) (Nat.div_le_div_right (Nat.le_succ F))
        have hres : (F + 1) / 2 ^ m = n / d + 1 := by omega
        have hstep : (n / d + 1) * 2 ^ m ≤ F + 1 := by
          rw [← hres]; exact Nat.div_mul_le_self _ _
        have hnm : n * 2 ^ m = d * (n / d * 2 ^ m) + n % d * 2 ^ m := by
          conv_lhs => rw [← Nat.div_add_mod n d]
          ring
        have hsplit : F = n / d * 2 ^ m + n % d * 2 ^ m / d := by
          rw [hFdef, hnm, Nat.mul_add_div hd1]
        have hdiv2 : 2 ^ m - 1 ≤ n % d * 2 ^ m / d := by
          rw [hsplit] at hstep
          rw [Nat.succ_mul] at hstep
          omega
        have hmd : 2 ^ m ≤ d := by
          have h1' : (2 ^ m - 1) * d ≤ n % d * 2 ^ m := (Nat.le_div_iff_mul_le hd1).mp hdiv2
          have h2' : n % d * 2 ^ m ≤ (d - 1) * 2 ^ m :=
            Nat.mul_le_mul_right _ (by have := Nat.mod_lt n hd1; omega)
          have e1 : (2 ^ m - 1) * d = 2 ^ m * d - d := by rw [Nat.sub_mul, one_mul]
          have e2 : (d - 1) * 2 ^ m = 2 ^ m * d - 2 ^ m := by
            rw [Nat.sub_mul, one_mul, Nat.mul_comm]
          have e3 : d ≤ 2 ^ m * d := Nat.le_mul_of_pos_left d hm0
          have e4 : 2 ^ m ≤ 2 ^ m * d := Nat.le_mul_of_pos_right _ hd1
          omega
        have hm31 : m ≤ 31 := by
          have hpow : (2 : ℕ) ^ m ≤ 2 ^ 31 := le_trans hmd hd31
          exact (Nat.pow_le_pow_iff_right (by norm_num)).mp hpow
        have hs21 : 21 ≤ s := by omega
        have hq21 : 2 ^ 21 ≤ n / d :=
          le_trans (Nat.pow_le_pow_right (by norm_num) hs21) hs1
        refine ⟨hq21, ?_⟩
        rw [hr, hres]
        omega
  · rw [if_neg hs]
    right
    set t := s - 52 with htdef
    have hq21 : 2 ^ 21 ≤ n / d := by
      have : (2 : ℕ) ^ 21 ≤ 2 ^ s := Nat.pow_le_pow_right (by norm_num) (by omega)
      exact le_trans this hs1
    refine ⟨hq21, ?_⟩
    have hql : 2 ^ 52 ≤ n / (d * 2 ^ t) := by
      rw [← Nat.div_div_eq_div_mul]
      calc (2 : ℕ) ^ 52 = 2 ^ s / 2 ^ t := by
            rw [Nat.pow_div (by omega) (by norm_num)]
            congr 1
            omega
      _ ≤ (n / d) / 2 ^ t := Nat.div_le_div_right hs1
    have hrge : n / (d * 2 ^ t) ≤ rne n (d * 2 ^ t) := rne_ge n (d * 2 ^ t)
    calc (2 : ℕ) ^ 21 ≤ 2 ^ 52 := Nat.pow_le_pow_right (by norm_num) (by norm_num)
    _ ≤ 2 ^ 52 * 2 ^ t := Nat.le_mul_of_pos_right _ (pow_pos (by norm_num) t)
    _ ≤ rne n (d * 2 ^ t) * 2 ^ t :=
        Nat.mul_le_mul_right _ (le_trans hql hrge)

/-- The two jump-index computations agree whenever the loop is still below
2^21, or both jump past 2^21 simultaneously. -/
theorem nextJF_eq_or_big (key j : ℕ) (hk : key < 2 ^ 64) (hj : j < 2 ^ 21) :
    nextJF key j = nextJ key j ∨ (2 ^ 21 ≤ nextJ key j ∧ 2 ^ 21 ≤ nextJF key j) := by
  have hd31 : key >>> 33 + 1 ≤ 2 ^ 31 := shift33_succ_le key hk
  have hdn : key >>> 33 + 1 ≤ (j + 1) * 2 ^ 31 := by
    calc key >>> 33 + 1 ≤ 2 ^ 31 := hd31
    _ ≤ (j + 1) * 2 ^ 31 := Nat.le_mul_of_pos_left _ (by omega)
  have hn : (j + 1) * 2 ^ 31 < 2 ^ 63 := by
    have : j + 1 ≤ 2 ^ 21 := by omega
    calc (j + 1) * 2 ^ 31 ≤ 2 ^ 21 * 2 ^ 31 := Nat.mul_le_mul_right _ this
    _ < 2 ^ 63 := by norm_num
  exact f64DivTrunc_eq_or_big ((j + 1) * 2 ^ 31) (key >>> 33 + 1)
    (Nat.succ_pos _) hd31 hdn hn

/-- For bucket counts up to 2^21 the integer-division loop of `lib.rs` and the
double-precision loop of `jumphash.rs` run in lockstep: in each iteration the
two jump indices are either equal, or both already at least `buckets`, making
both loops exit with the same `b`. -/
theorem jumpGo_lockstep (buckets : ℕ) (hb : buckets ≤ 2 ^ 21) :
    ∀ (f key j : ℕ) (b : ℤ), jumpGoF f buckets key j b = jumpGoFP f buckets key j b := by
  intro f
  induction f with
  | zero => intro key j b; rfl
  | succ f ih =>
    intro key j b
    by_cases hj : j < buckets
    · simp only [jumpGoF, jumpGoFP, if_pos hj]
      have hj21 : j < 2 ^ 21 := lt_of_lt_of_le hj hb
      rcases nextJF_eq_or_big (lcgStep key) j (lcgStep_lt key) hj21 with heq | ⟨hbig1, hbig2⟩
      · rw [heq]
        exact ih (lcgStep key) (nextJ (lcgStep key) j) (j : ℤ)
      · rw [jumpGoF_exit _ _ _ _ _ (le_trans hb hbig1),
            jumpGoFP_exit _ _ _ _ _ (le_trans hb hbig2)]
    · simp [jumpGoF, jumpGoFP, hj]

/-- C9 (amended): the `lib.rs` implementation (integer division) and the
`jumphash.rs` implementation (double-precision division) return the same
bucket index for every seed whenever `1 ≤ buckets ≤ 2^21`.  They do not agree
for every `u32` bucket count — see `implementations_disagree`. -/
theorem implementations_agree_small_buckets (key buckets : ℕ) (h1 : 1 ≤ buckets)
    (h2 : buckets ≤ 2 ^ 21) :
    jump_hash_from_u64 key buckets = jumphash_jump_hash_from_u64 key buckets := by
  unfold jump_hash_from_u64 jumphash_jump_hash_from_u64
  rw [jumpGo_lockstep buckets h2]

theorem implementations_agree_small_buckets_witness :
    jump_hash_from_u64 1 7 = jumphash_jump_hash_from_u64 1 7 :=
  implementations_agree_small_buckets 1 7 (by decide) (by decide)

/-- C9 (counterexample): at seed 9609822 with 2342482873 buckets the two
implementations return different bucket indices, so they are not equivalent
over all `u32` bucket counts. -/
theorem implementations_disagree :
    jump_hash_from_u64 9609822 2342482873 ≠
      jumphash_jump_hash_from_u64 9609822 2342482873 ∧
    jump_hash_from_u64 9609822 2342482873 = some 2342482872 ∧
    jumphash_jump_hash_from_u64 9609822 2342482873 = some 602414317 :=
  ⟨by decide, by decide, by decide⟩

/-- C4: the division in the `lib.rs` loop is 64-bit integer division, not
double-precision floating-point division, and this changes the result: at
seed 9060614 with 3954531478 buckets, `lib.rs` returns 3954531477 while the
double-precision reference semantics (as implemented in `jumphash.rs` and in
the published algorithm) return 1440751170. -/
theorem integer_division_differs_from_double :
    jump_hash_from_u64 9060614 3954531478 = some 3954531477 ∧
    jumphash_jump_hash_from_u64 9060614 3954531478 = some 1440751170 ∧
    jump_hash_from_u64 9060614 3954531478 ≠
      jumphash_jump_hash_from_u64 9060614 3954531478 :=
  ⟨by decide, by decide, by decide⟩
